import Mathlib

/-!
Verification model of the grpckit marshaler layer (marshalers.go).

The Go source is shallowly embedded: the JSON value tree built by the form
and multipart codecs becomes the inductive type JVal; the Go functions
inferType, valuesToJSON, writeJSON, detectBoundary, putBuffer/getBuffer,
titleCase and the Marshal/Unmarshal methods of the Binary, Multipart and
Text marshalers become Lean functions over that embedding.  External
library calls (strconv, mime/multipart, proto, reflect) are modelled at
the interface granularity the source uses, as noted in each doc comment.
-/

set_option maxRecDepth 10000
set_option exponentiation.threshold 1100

namespace Grpckit

/-- JSON value tree node, embedding the dynamic values the Go code stores in
a map of string to empty-interface.  The constructors mirror the cases of
the switch in writeJSON (marshalers.go): nil, bool, int64, float64, string,
slice of interface values, map of string to interface values.  vBytes stands
for any other dynamically typed value that can reach the tree (the multipart
codec stores raw file bytes there), which writeJSON rejects via its default
branch.  float64 values are represented by the exact rational value of the
numeric token; IEEE-754 rounding is not modelled (no claim depends on it). -/
inductive JVal where
  | vNull : JVal
  | vBool (b : Bool) : JVal
  | vInt (n : Int) : JVal
  | vFloat (q : Rat) : JVal
  | vStr (s : String) : JVal
  | vBytes (bs : List Nat) : JVal
  | vArr (xs : List JVal) : JVal
  | vObj (fs : List (String × JVal)) : JVal

/-- Decimal digit test, as used by Go strconv when scanning base-10 digits. -/
def isDigit (c : Char) : Bool := '0' ≤ c && c ≤ '9'

/-- Hexadecimal digit test (Go strconv hex-float mantissa scanning). -/
def isHexDigit (c : Char) : Bool :=
  isDigit c || ('a' ≤ c && c ≤ 'f') || ('A' ≤ c && c ≤ 'F')

/-- Numeric value of a decimal digit list (most significant first). -/
def digitsVal (cs : List Char) : Nat :=
  cs.foldl (fun a c => a * 10 + (c.toNat - '0'.toNat)) 0

/-- Numeric value of a hexadecimal digit list (most significant first). -/
def hexDigitsVal (cs : List Char) : Nat :=
  cs.foldl (fun a c =>
    a * 16 + (if isDigit c then c.toNat - '0'.toNat
              else if 'a' ≤ c && c ≤ 'f' then c.toNat - 'a'.toNat + 10
              else c.toNat - 'A'.toNat + 10)) 0

/-- Model of Go strconv.ParseInt(s, 10, 64): an optional single sign
character followed by one or more ASCII decimal digits, with the result
required to fit in a signed 64-bit integer; none models a non-nil error
(syntax error or range error).  Underscore digit separators are rejected
because the call passes an explicit base of 10. -/
def goParseInt64 (s : String) : Option Int :=
  match s.toList with
  | [] => none
  | c :: rest =>
    let p : Bool × List Char :=
      if c = '-' then (true, rest)
      else if c = '+' then (false, rest)
      else (false, c :: rest)
    match p with
    | (neg, ds) =>
      if ds = [] then none
      else if ds.all isDigit then
        let v : Int := if neg then -(digitsVal ds : Int) else (digitsVal ds : Int)
        if -(2 : Int) ^ 63 ≤ v ∧ v ≤ (2 : Int) ^ 63 - 1 then some v else none
      else none

/-- Longest run of decimal digits at the head of the list, with the rest. -/
def spanDigits : List Char → List Char × List Char
  | [] => ([], [])
  | c :: rest =>
    if isDigit c then
      let p := spanDigits rest
      (c :: p.1, p.2)
    else ([], c :: rest)

/-- Longest run of hexadecimal digits at the head of the list, with the rest. -/
def spanHex : List Char → List Char × List Char
  | [] => ([], [])
  | c :: rest =>
    if isHexDigit c then
      let p := spanHex rest
      (c :: p.1, p.2)
    else ([], c :: rest)

/-- Exact multiplication of rationals, written with the smart constructor
mkRat so that it evaluates by kernel reduction; it agrees with the library
multiplication on every pair of rationals. -/
def ratMul (a b : Rat) : Rat := mkRat (a.num * b.num) (a.den * b.den)

/-- Ten raised to an integer power, as an exact rational. -/
def ratPow10 (e : Int) : Rat :=
  if 0 ≤ e then mkRat (Int.ofNat (10 ^ e.toNat)) 1 else mkRat 1 (10 ^ (-e).toNat)

/-- Two raised to an integer power, as an exact rational. -/
def ratPow2 (e : Int) : Rat :=
  if 0 ≤ e then mkRat (Int.ofNat (2 ^ e.toNat)) 1 else mkRat 1 (2 ^ (-e).toNat)

/-- Values accepted by the float64 range check of Go strconv.ParseFloat:
magnitudes at or above 2^1024 - 2^970 round to infinity and yield ErrRange,
and nonzero magnitudes at or below 2^(-1075) round to zero and yield
ErrRange.  The comparisons are phrased on the numerator and denominator so
that they evaluate by kernel reduction; they say exactly that the magnitude
of v lies strictly between the two threshold rationals.  The exact IEEE-754
behaviour at the two boundary points is abstracted to these thresholds;
every claim concerns values far from the float64 range limits. -/
def inFloat64Range (v : Rat) : Bool :=
  v.num == 0 ||
    (v.num.natAbs < (2 ^ 1024 - 2 ^ 970 : Nat) * v.den &&
     v.den < v.num.natAbs * (2 ^ 1075 : Nat))

/-- Port of Go strconv's underscoreOK check: underscores may appear only
between digits or between a base prefix and a digit.  The scan state is
0 for start, 1 for digit or base prefix, 2 for underscore, 3 for other. -/
def underscoreOK (cs : List Char) : Bool :=
  let afterSign : List Char :=
    match cs with
    | '-' :: r => r
    | '+' :: r => r
    | r => r
  let p : Bool × List Char :=
    match afterSign with
    | '0' :: b :: r =>
      if b = 'x' || b = 'X' || b = 'b' || b = 'B' || b = 'o' || b = 'O' then
        (b = 'x' || b = 'X', r)
      else (false, afterSign)
    | r => (false, r)
  let hex := p.1
  let body := p.2
  let startSaw : Nat := if body = afterSign then 0 else 1
  let step : Nat → Char → Nat := fun saw c =>
    if saw = 4 then 4
    else if isDigit c || (hex && isHexDigit c) then 1
    else if c = '_' then (if saw = 1 then 2 else 4)
    else if saw = 2 then 4
    else 3
  let final := body.foldl step startSaw
  final ≠ 2 && final ≠ 4

/-- Decimal mantissa and exponent section of Go strconv.ParseFloat, applied
after the optional sign has been removed: digits, an optional fractional
part introduced by a dot, and an optional exponent part introduced by e or
E; the whole input must be consumed and at least one mantissa digit must be
present.  The numeric result is the exact rational value of the token,
subject to the float64 range check. -/
def parseDecAfterSign (cs : List Char) (neg : Bool) : Option Rat :=
  let ipr := spanDigits cs
  let fpr : List Char × List Char :=
    match ipr.2 with
    | '.' :: t => spanDigits t
    | _ => ([], ipr.2)
  let ip := ipr.1
  let fp := fpr.1
  if ip = [] ∧ fp = [] then none
  else
    let mant : Rat := mkRat (Int.ofNat (digitsVal (ip ++ fp))) (10 ^ fp.length)
    let finish : Int → Option Rat := fun ev =>
      let v0 := ratMul mant (ratPow10 ev)
      let v := if neg then Rat.neg v0 else v0
      if inFloat64Range v then some v else none
    match fpr.2 with
    | [] => finish 0
    | e :: r3 =>
      if e = 'e' ∨ e = 'E' then
        let sr : Bool × List Char :=
          match r3 with
          | '+' :: t => (false, t)
          | '-' :: t => (true, t)
          | t => (false, t)
        let edr := spanDigits sr.2
        if edr.1 = [] ∨ edr.2 ≠ [] then none
        else finish (if sr.1 then -(digitsVal edr.1 : Int) else (digitsVal edr.1 : Int))
      else none

/-- Hexadecimal mantissa section of Go strconv.ParseFloat, applied after the
sign and the 0x base marker: hex digits with an optional fractional part,
then a mandatory binary exponent introduced by p or P with decimal digits;
the whole input must be consumed. -/
def parseHexAfter (cs : List Char) (neg : Bool) : Option Rat :=
  let ipr := spanHex cs
  let fpr : List Char × List Char :=
    match ipr.2 with
    | '.' :: t => spanHex t
    | _ => ([], ipr.2)
  let ip := ipr.1
  let fp := fpr.1
  if ip = [] ∧ fp = [] then none
  else
    match fpr.2 with
    | [] => none
    | p :: r3 =>
      if p = 'p' ∨ p = 'P' then
        let sr : Bool × List Char :=
          match r3 with
          | '+' :: t => (false, t)
          | '-' :: t => (true, t)
          | t => (false, t)
        let edr := spanDigits sr.2
        if edr.1 = [] ∨ edr.2 ≠ [] then none
        else
          let mant : Rat := mkRat (Int.ofNat (hexDigitsVal (ip ++ fp))) (16 ^ fp.length)
          let ev : Int := if sr.1 then -(digitsVal edr.1 : Int) else (digitsVal edr.1 : Int)
          let v0 := ratMul mant (ratPow2 ev)
          let v := if neg then Rat.neg v0 else v0
          if inFloat64Range v then some v else none
      else none

/-- Sign and base dispatch of the ParseFloat number grammar. -/
def parseFloatCore (cs : List Char) : Option Rat :=
  let sr : Bool × List Char :=
    match cs with
    | '+' :: r => (false, r)
    | '-' :: r => (true, r)
    | r => (false, r)
  match sr.2 with
  | '0' :: 'x' :: r => parseHexAfter r sr.1
  | '0' :: 'X' :: r => parseHexAfter r sr.1
  | _ => parseDecAfterSign sr.2 sr.1

/-- Model of Go strconv.ParseFloat(s, 64): none models a non-nil error.
Underscore separators are first validated by underscoreOK and then removed,
which reproduces the source scanner's skip-and-validate handling.  The
special spellings Inf, Infinity and NaN, which ParseFloat also accepts, are
omitted from the model: they contain no dot character, and inferType only
uses a successful float parse when the input contains a dot, so the
omission is unobservable through the embedded code. -/
def goParseFloat (s : String) : Option Rat :=
  let cs := s.toList
  if cs.contains '_' && !underscoreOK cs then none
  else parseFloatCore (cs.filter (fun c => c ≠ '_'))

/-- Embedding of inferType (marshalers.go): first the exact strings true
and false, then ParseInt base 10 bit size 64, then ParseFloat whose result
is used only when the input contains a dot, and finally the input string
itself unchanged. -/
def inferType (s : String) : JVal :=
  if s = "true" then JVal.vBool true
  else if s = "false" then JVal.vBool false
  else
    match goParseInt64 s with
    | some i => JVal.vInt i
    | none =>
      match goParseFloat s with
      | some q => if s.toList.contains '.' then JVal.vFloat q else JVal.vStr s
      | none => JVal.vStr s

/-! ## Form codec: valuesToJSON tree construction -/

/-- Model of Go strings.Split(key, ".") on the character list of the key:
the list of dot-separated segments, never empty (the empty key yields one
empty segment, exactly as in Go). -/
def splitOnDot : List Char → List (List Char)
  | [] => [[]]
  | c :: rest =>
    let r := splitOnDot rest
    if c = '.' then [] :: r
    else
      match r with
      | [] => [[c]]
      | g :: gs => (c :: g) :: gs

/-- Segments of a key, as strings: the Go parts variable in valuesToJSON. -/
def splitKey (k : String) : List String :=
  (splitOnDot k.toList).map (fun cs => String.mk cs)

/-- Lookup in the association-list embedding of a Go map of string to
interface value.  Go map iteration order is nondeterministic; the model
fixes insertion order, which no claim depends on. -/
def lookupKey (m : List (String × JVal)) (k : String) : Option JVal :=
  match m with
  | [] => none
  | (k0, v0) :: rest => if k0 = k then some v0 else lookupKey rest k

/-- Map update current[k] = v of the association-list embedding: replaces
the value at an existing key in place, otherwise appends the binding. -/
def setKey (m : List (String × JVal)) (k : String) (v : JVal) : List (String × JVal) :=
  match m with
  | [] => [(k, v)]
  | (k0, v0) :: rest => if k0 = k then (k0, v) :: rest else (k0, v0) :: setKey rest k v

/-- Embedding of the inner loop of valuesToJSON (marshalers.go) for one key:
walks the dot-separated parts, setting the value at the last part; at an
intermediate part it creates an empty nested map when the key is absent and
descends into the existing value only when it is a map — when the existing
value is not a map, the Go code leaves the current map unchanged and keeps
processing the remaining parts at the same level. -/
def insertParts (m : List (String × JVal)) (parts : List String) (v : JVal) :
    List (String × JVal) :=
  match parts with
  | [] => m
  | [p] => setKey m p v
  | p :: q :: rest =>
    match lookupKey m p with
    | some (JVal.vObj nested) => setKey m p (JVal.vObj (insertParts nested (q :: rest) v))
    | some _ => insertParts m (q :: rest) v
    | none => setKey m p (JVal.vObj (insertParts [] (q :: rest) v))

/-- Embedding of the loop of valuesToJSON (marshalers.go) over Go
url.Values: keys with no values are skipped, a key with exactly one value
stores the inferred value, a key with several values stores an array of
inferred values in submission order.  url.Values is modelled as an
association list processed in list order, standing for one possible Go map
iteration order. -/
def formStep (acc : List (String × JVal)) (kv : String × List String) :
    List (String × JVal) :=
  match kv with
  | (_, []) => acc
  | (k, [v]) => insertParts acc (splitKey k) (inferType v)
  | (k, vs) => insertParts acc (splitKey k) (JVal.vArr (vs.map inferType))

def valuesToTree (values : List (String × List String)) : List (String × JVal) :=
  values.foldl formStep []

/-! ## JSON writer (writeJSON / marshalJSON) -/

/-- Rendering of a float64 value by fmt.Fprintf with the %g verb,
abstracted to the default rendering of the exact rational; no claim
concerns the rendered text of numbers. -/
def fmtFloat (q : Rat) : String := toString q

/-- Rendering of a string by fmt.Fprintf with the %q verb, abstracted to
surrounding quotes with backslash escaping of the quote and backslash
characters; no claim concerns the escaped text. -/
def quoteGo (s : String) : String :=
  let esc := s.toList.foldr
    (fun c acc =>
      if c = '"' then '\\' :: '"' :: acc
      else if c = '\\' then '\\' :: '\\' :: acc
      else c :: acc) []
  String.mk ('"' :: esc) ++ "\""

mutual

/-- Embedding of writeJSON (marshalers.go).  The writer is a bytes.Buffer
whose writes cannot fail, so the only error the Go function can produce is
the default-branch unsupported-type error, raised here by the vBytes case
(the %T of a Go byte slice prints as []uint8). -/
def writeJSON : JVal → Except String String
  | JVal.vNull => Except.ok "null"
  | JVal.vBool b => Except.ok (if b then "true" else "false")
  | JVal.vInt n => Except.ok (toString n)
  | JVal.vFloat q => Except.ok (fmtFloat q)
  | JVal.vStr s => Except.ok (quoteGo s)
  | JVal.vBytes _ => Except.error "unsupported type: []uint8"
  | JVal.vArr xs =>
    match writeArr xs with
    | Except.ok body => Except.ok ("[" ++ body ++ "]")
    | Except.error e => Except.error e
  | JVal.vObj fs =>
    match writeObj fs with
    | Except.ok body => Except.ok ("\x7b" ++ body ++ "\x7d")
    | Except.error e => Except.error e

/-- Comma-separated rendering of the elements of a JSON array, stopping at
the first element error, as the write loop of writeJSON does. -/
def writeArr : List JVal → Except String String
  | [] => Except.ok ""
  | [x] => writeJSON x
  | x :: y :: rest =>
    match writeJSON x with
    | Except.error e => Except.error e
    | Except.ok s =>
      match writeArr (y :: rest) with
      | Except.error e => Except.error e
      | Except.ok t => Except.ok (s ++ "," ++ t)

/-- Comma-separated rendering of the fields of a JSON object, stopping at
the first value error, as the write loop of writeJSON does. -/
def writeObj : List (String × JVal) → Except String String
  | [] => Except.ok ""
  | [(k, v)] =>
    match writeJSON v with
    | Except.error e => Except.error e
    | Except.ok s => Except.ok (quoteGo k ++ ":" ++ s)
  | (k, v) :: f :: rest =>
    match writeJSON v with
    | Except.error e => Except.error e
    | Except.ok s =>
      match writeObj (f :: rest) with
      | Except.error e => Except.error e
      | Except.ok t => Except.ok (quoteGo k ++ ":" ++ s ++ "," ++ t)

end

/-- Embedding of marshalJSON (marshalers.go): writes the value into a
pooled buffer and copies the result out.  The buffer acquisition, reset
and release are modelled separately (getBuffer/putBuffer below); since the
copied-out bytes equal the written bytes, the function is writeJSON. -/
def marshalJSON (v : JVal) : Except String String := writeJSON v

/-- Embedding of valuesToJSON (marshalers.go): the tree built from the URL
values, serialized by marshalJSON. -/
def valuesToJSON (values : List (String × List String)) : Except String String :=
  marshalJSON (JVal.vObj (valuesToTree values))

mutual

/-- Trees every node of which is one of the kinds the writeJSON switch
accepts (no vBytes anywhere). -/
def goodVal : JVal → Bool
  | JVal.vNull => true
  | JVal.vBool _ => true
  | JVal.vInt _ => true
  | JVal.vFloat _ => true
  | JVal.vStr _ => true
  | JVal.vBytes _ => false
  | JVal.vArr xs => goodList xs
  | JVal.vObj fs => goodObj fs

/-- All elements of an array are writeJSON-acceptable. -/
def goodList : List JVal → Bool
  | [] => true
  | x :: xs => goodVal x && goodList xs

/-- All values of an object are writeJSON-acceptable. -/
def goodObj : List (String × JVal) → Bool
  | [] => true
  | (_, v) :: fs => goodVal v && goodObj fs

end

/-! ## Multipart codec: boundary detection and Unmarshal -/

/-- Whether the pattern is a prefix of the list (bytes.HasPrefix). -/
def isPfxOf (pat hay : List Char) : Bool :=
  match pat, hay with
  | [], _ => true
  | _ :: _, [] => false
  | p :: ps, h :: hs => p = h && isPfxOf ps hs

/-- Index of the first occurrence of the pattern in the list, none when the
pattern does not occur (bytes.Index with a -1 result becoming none). -/
def subIndex (pat hay : List Char) : Option Nat :=
  match hay with
  | [] => if pat = [] then some 0 else none
  | _ :: hs =>
    if isPfxOf pat hay then some 0
    else (subIndex pat hs).map (fun n => n + 1)

/-- Position of the line terminator delimiting the first line, as computed
by detectBoundary (marshalers.go): the index of the first CRLF pair when
one occurs anywhere in the data, otherwise the index of the first LF. -/
def firstTermIdx (data : List Char) : Option Nat :=
  match subIndex ['\r', '\n'] data with
  | some i => some i
  | none => subIndex ['\n'] data

/-- Embedding of detectBoundary (marshalers.go): the first line is the data
up to the preferred line terminator; when it starts with two dashes the
boundary is the line with that two-dash marker stripped once
(strings.TrimPrefix), otherwise, and when no terminator exists at all, the
result is the empty string.  Payload bytes are modelled as characters. -/
def detectBoundary (data : List Char) : List Char :=
  match firstTermIdx data with
  | none => []
  | some i =>
    let line := data.take i
    if isPfxOf ['-', '-'] line then line.drop 2 else []

/-- Boundary-checking step of multipartDecoder.Decode (marshalers.go): the
decoder reads the whole payload, calls detectBoundary, and fails with the
could-not-detect error when the boundary is empty; otherwise it hands the
payload and boundary to the external mime/multipart reader, modelled here
by returning the detected boundary. -/
def multipartDecodeBoundary (data : List Char) : Except String (List Char) :=
  let boundary := detectBoundary data
  if boundary = [] then Except.error "multipart decoder: could not detect boundary"
  else Except.ok boundary

/-- Embedding of MultipartMarshaler.Unmarshal (marshalers.go): the method
body is a single unconditional error return, for any payload and any
target value. -/
def multipartUnmarshal {α : Type} (_data : List Char) (_v : α) : Except String α :=
  Except.error "multipart marshaler: use NewDecoder for multipart data"

/-! ## BufferPool (getBuffer / putBuffer) -/

/-- A bytes.Buffer: its readable content and its capacity. -/
structure GoBuffer where
  content : List Nat
  cap : Nat

/-- Pool contents; sync.Pool is modelled as a list of pooled buffers.  The
real pool may drop entries at any time, which only shrinks the list and
preserves every property proved about it. -/
def BufPool := List GoBuffer

/-- Embedding of putBuffer (marshalers.go): a buffer whose capacity exceeds
64 KiB is dropped, any other buffer is reset to empty and pooled. -/
def putBuffer (pool : List GoBuffer) (buf : GoBuffer) : List GoBuffer :=
  if buf.cap > 64 * 1024 then pool
  else { content := [], cap := buf.cap } :: pool

/-- Embedding of getBuffer (marshalers.go): sync.Pool.Get returns a pooled
buffer when one is available and otherwise the New function's fresh empty
buffer. -/
def getBuffer (pool : List GoBuffer) : GoBuffer × List GoBuffer :=
  match pool with
  | [] => ({ content := [], cap := 0 }, [])
  | b :: rest => (b, rest)

/-- A bytes.Buffer write: appends to the content and grows the capacity at
least enough to hold the content (the exact growth policy of bytes.Buffer
is irrelevant to the pooling claims). -/
def writeBuffer (buf : GoBuffer) (data : List Nat) : GoBuffer :=
  { content := buf.content ++ data,
    cap := max buf.cap (buf.content.length + data.length) }

/-- Every buffer sitting in the pool is empty. -/
def poolInv (pool : List GoBuffer) : Prop := ∀ b ∈ pool, b.content = []

/-! ## Binary codec -/

/-- View of a proto message as the Binary codec observes it by reflection:
the conventional Data byte-slice field when the concrete message type has
one, and the whole-message proto encoding produced by the external
proto.Marshal (abstracted as a field of the model, including its possible
error). -/
structure ProtoMsg where
  dataField : Option (List Nat)
  protoEnc : Except String (List Nat)

/-- Dynamic argument of BinaryMarshaler.Marshal: a proto message, a raw
byte slice, or any other value. -/
inductive BinInput where
  | msgIn (m : ProtoMsg)
  | bytesIn (bs : List Nat)
  | otherIn

/-- Embedding of BinaryMarshaler.Marshal (marshalers.go): a proto message
with a byte-slice field named Data marshals to that field's bytes; a proto
message without one falls back to proto.Marshal; a raw byte slice is
returned unchanged; anything else is an unsupported-type error. -/
def binaryMarshal : BinInput → Except String (List Nat)
  | BinInput.msgIn m =>
    match m.dataField with
    | some bs => Except.ok bs
    | none => m.protoEnc
  | BinInput.bytesIn bs => Except.ok bs
  | BinInput.otherIn => Except.error "binary marshaler: unsupported type"

/-! ## Text codec -/

/-- Embedding of titleCase (marshalers.go): the empty string is returned
unchanged, otherwise the first character is upper-cased.  Go uses
unicode.ToUpper; the model's Char.toUpper agrees with it on ASCII, and all
claims use ASCII names. -/
def titleCase (s : String) : String :=
  match s.toList with
  | [] => s
  | c :: rest => String.mk (c.toUpper :: rest)

/-- A struct field as the Text codec observes it by reflection: whether its
kind is string, whether it is settable, and its current string value. -/
structure GoField where
  isString : Bool
  canSet : Bool
  value : String
  deriving DecidableEq

/-- Dynamic argument of the Text codec methods: a proto message seen as its
named fields, a plain Go string, or any other value. -/
inductive TextInput where
  | msgIn (fields : List (String × GoField))
  | strIn (s : String)
  | otherIn

/-- reflect FieldByName on the field list of a message: Go struct field
names are unique, and lookup is by exact name. -/
def fieldByName (fields : List (String × GoField)) (name : String) : Option GoField :=
  match fields with
  | [] => none
  | (n, f) :: rest => if n = name then some f else fieldByName rest name

/-- Store a new string value into the named field, leaving other fields
unchanged. -/
def setFieldValue (fields : List (String × GoField)) (name : String) (data : String) :
    List (String × GoField) :=
  match fields with
  | [] => []
  | (n, f) :: rest =>
    if n = name then (n, { f with value := data }) :: rest
    else (n, f) :: setFieldValue rest name data

/-- Fallback half of TextMarshaler.Marshal (marshalers.go): the literal
field name Message, accepted when present with string kind (settability is
not examined when reading). -/
def textMarshalFallback (fields : List (String × GoField)) : Except String String :=
  match fieldByName fields "Message" with
  | some f => if f.isString then Except.ok f.value else Except.error "text marshaler: no string field found"
  | none => Except.error "text marshaler: no string field found"

/-- Embedding of TextMarshaler.Marshal (marshalers.go): for a proto message
the configured output field name (default text) is title-cased and looked
up; a found field of string kind is returned without a settability check;
otherwise the literal name Message is tried; a plain string input is
returned directly; anything else is an error. -/
def textMarshal (outputField : String) (v : TextInput) : Except String String :=
  match v with
  | TextInput.msgIn fields =>
    let name := if outputField = "" then "text" else outputField
    (match fieldByName fields (titleCase name) with
     | some f => if f.isString then Except.ok f.value else textMarshalFallback fields
     | none => textMarshalFallback fields)
  | TextInput.strIn s => Except.ok s
  | TextInput.otherIn => Except.error "text marshaler: no string field found"

/-- Fallback half of TextMarshaler.Unmarshal (marshalers.go): the literal
field name Message, accepted when present, settable and of string kind. -/
def textUnmarshalFallback (fields : List (String × GoField)) (data : String) :
    Except String (List (String × GoField)) :=
  match fieldByName fields "Message" with
  | some f =>
    if f.canSet && f.isString then Except.ok (setFieldValue fields "Message" data)
    else Except.error "text marshaler: no string field found to set"
  | none => Except.error "text marshaler: no string field found to set"

/-- Embedding of TextMarshaler.Unmarshal (marshalers.go): for a proto
message the configured input field name (default text) is title-cased and
looked up; a found field that is settable and of string kind receives the
payload; otherwise the literal name Message is tried under the same
settable-string condition; any non-message input is an error. -/
def textUnmarshal (inputField : String) (data : String) (v : TextInput) :
    Except String (List (String × GoField)) :=
  match v with
  | TextInput.msgIn fields =>
    let name := if inputField = "" then "text" else inputField
    (match fieldByName fields (titleCase name) with
     | some f =>
       if f.canSet && f.isString then Except.ok (setFieldValue fields (titleCase name) data)
       else textUnmarshalFallback fields data
     | none => textUnmarshalFallback fields data)
  | _ => Except.error "text marshaler: no string field found to set"

/-- Straight-line nested chain of singleton objects along a segment list,
ending in the given value: the shape valuesToJSON gives a key processed on
a fresh tree. -/
def nestChain (parts : List String) (v : JVal) : List (String × JVal) :=
  match parts with
  | [] => []
  | [p] => [(p, v)]
  | p :: q :: rest => [(p, JVal.vObj (nestChain (q :: rest) v))]

/-! ## Theorems -/

/-- C1: for every input string, inferType returns exactly one of bool,
int64, float64 or string and never fails; the strings true and false yield
the booleans; otherwise a string accepted by ParseInt base 10 yields that
int64 (01 yields 1 and -456 yields -456); otherwise a string containing a
dot and accepted by ParseFloat yields that float64 (3.14 yields 3.14, 1.0
is a float while 1 is an integer); otherwise the original string is
returned unchanged (the empty string yields the empty string). -/
theorem inferType_total_first_match :
    (∀ s : String,
      (∃ b, inferType s = JVal.vBool b) ∨ (∃ n, inferType s = JVal.vInt n) ∨
      (∃ q, inferType s = JVal.vFloat q) ∨ (∃ t, inferType s = JVal.vStr t))
    ∧ inferType "true" = JVal.vBool true
    ∧ inferType "false" = JVal.vBool false
    ∧ (∀ s n, s ≠ "true" → s ≠ "false" → goParseInt64 s = some n →
        inferType s = JVal.vInt n)
    ∧ inferType "01" = JVal.vInt 1
    ∧ inferType "-456" = JVal.vInt (-456)
    ∧ (∀ s q, s ≠ "true" → s ≠ "false" → goParseInt64 s = none →
        goParseFloat s = some q → s.toList.contains '.' = true →
        inferType s = JVal.vFloat q)
    ∧ inferType "3.14" = JVal.vFloat (mkRat 157 50)
    ∧ inferType "1.0" = JVal.vFloat 1
    ∧ inferType "1" = JVal.vInt 1
    ∧ (∀ s q, s ≠ "true" → s ≠ "false" → goParseInt64 s = none →
        goParseFloat s = some q → s.toList.contains '.' = false →
        inferType s = JVal.vStr s)
    ∧ (∀ s, s ≠ "true" → s ≠ "false" → goParseInt64 s = none →
        goParseFloat s = none → inferType s = JVal.vStr s)
    ∧ inferType "" = JVal.vStr "" := by
  refine ⟨?_, rfl, rfl, ?_, rfl, rfl, ?_, rfl, rfl, rfl, ?_, ?_, rfl⟩
  · intro s
    unfold inferType
    split
    · exact Or.inl ⟨true, rfl⟩
    split
    · exact Or.inl ⟨false, rfl⟩
    split
    · next i _ => exact Or.inr (Or.inl ⟨i, rfl⟩)
    split
    · next q _ =>
      split
      · exact Or.inr (Or.inr (Or.inl ⟨q, rfl⟩))
      · exact Or.inr (Or.inr (Or.inr ⟨s, rfl⟩))
    · exact Or.inr (Or.inr (Or.inr ⟨s, rfl⟩))
  · intro s n hs hf hp
    simp [inferType, hs, hf, hp]
  · intro s q hs hf hp hq hdot
    simp only [inferType, if_neg hs, if_neg hf, hp, hq, hdot, if_true]
  · intro s q hs hf hp hq hdot
    simp only [inferType, if_neg hs, if_neg hf, hp, hq, hdot, Bool.false_eq_true,
      if_false]
  · intro s hs hf hp hq
    simp [inferType, hs, hf, hp, hq]

/-- Witness for C1 at concrete inputs: the integer branch fires for +7
(ParseInt accepts an explicit plus sign) and the string branch fires for
the word hello. -/
theorem inferType_total_first_match_witness :
    inferType "+7" = JVal.vInt 7 ∧ inferType "hello" = JVal.vStr "hello" :=
  ⟨inferType_total_first_match.2.2.2.1 "+7" 7 (by decide) (by decide) (by decide),
   inferType_total_first_match.2.2.2.2.2.2.2.2.2.2.2.1 "hello"
     (by decide) (by decide) (by decide) (by decide)⟩

/-- Helper: a two-character pattern with distinct characters that does not
occur in a list occurs first at the junction when the pattern itself is
appended after the list. -/
theorem subIndex_append_pair (a b : Char) (hab : a ≠ b) :
    ∀ (bdy rest : List Char), subIndex [a, b] bdy = none →
      subIndex [a, b] (bdy ++ a :: b :: rest) = some bdy.length := by
  intro bdy rest h
  induction bdy with
  | nil =>
    simp [subIndex, isPfxOf]
  | cons c cs ih =>
    simp only [subIndex] at h
    rcases hsp : isPfxOf [a, b] (c :: cs) with _ | _
    · rw [hsp] at h
      simp only [if_false, Bool.false_eq_true] at h
      have hcs : subIndex [a, b] cs = none := by
        cases hx : subIndex [a, b] cs with
        | none => rfl
        | some i => rw [hx] at h; simp at h
      have goal_pfx : isPfxOf [a, b] (c :: (cs ++ a :: b :: rest)) = false := by
        cases cs with
        | nil =>
          simp [isPfxOf]
          intro hca
          exact fun hbeq => hab hbeq.symm
        | cons d cs' =>
          simp only [isPfxOf, List.cons_append] at hsp ⊢
          simpa using hsp
      have hstep : subIndex [a, b] (c :: cs ++ a :: b :: rest) =
          Option.map (fun n => n + 1) (subIndex [a, b] (cs ++ a :: b :: rest)) := by
        simp only [List.cons_append, subIndex, goal_pfx, Bool.false_eq_true, if_false]
        rfl
      rw [hstep, ih hcs]
      simp
    · rw [hsp] at h
      simp at h

/-- Helper: detectBoundary unfolded at a found terminator position. -/
theorem detectBoundary_eq_some (data : List Char) (i : Nat)
    (h : firstTermIdx data = some i) :
    detectBoundary data =
      if isPfxOf ['-', '-'] (data.take i) then (data.take i).drop 2 else [] := by
  unfold detectBoundary
  rw [h]

/-- Helper: detectBoundary is empty when no line terminator exists. -/
theorem detectBoundary_eq_none (data : List Char) (h : firstTermIdx data = none) :
    detectBoundary data = [] := by
  unfold detectBoundary
  rw [h]

/-- C4: boundary detection takes the first line delimited by the preferred
terminator (a CRLF pair anywhere in the payload, else the first LF),
strips a leading two-dash marker from it, and yields the empty result when
the first line does not start with two dashes or when no terminator exists
at all; in particular a payload starting with two dashes before XYZ123 and
a CRLF yields XYZ123, a payload whose first line lacks the dashes yields
the empty result, and a terminator-free payload yields the empty result. -/
theorem detectBoundary_spec :
    (∀ (bdy rest : List Char), subIndex ['\r', '\n'] bdy = none →
        detectBoundary ('-' :: '-' :: bdy ++ '\r' :: '\n' :: rest) = bdy)
    ∧ (∀ (data : List Char) (i : Nat), firstTermIdx data = some i →
        isPfxOf ['-', '-'] (data.take i) = false → detectBoundary data = [])
    ∧ (∀ data : List Char, firstTermIdx data = none → detectBoundary data = [])
    ∧ detectBoundary ("--XYZ123\r\nContent-Type: application/json".toList) = "XYZ123".toList
    ∧ detectBoundary ("XYZ123\r\nContent-Type: application/json".toList) = []
    ∧ detectBoundary ("--XYZ123 no terminator".toList) = [] := by
  refine ⟨?_, ?_, ?_, rfl, rfl, rfl⟩
  · intro bdy rest h
    have h2 : subIndex ['\r', '\n'] ('-' :: '-' :: bdy) = none := by
      simp [subIndex, isPfxOf, h]
    have h3 := subIndex_append_pair '\r' '\n' (by decide) ('-' :: '-' :: bdy) rest h2
    simp only [List.length_cons] at h3
    have hterm : firstTermIdx ('-' :: '-' :: bdy ++ '\r' :: '\n' :: rest) =
        some (bdy.length + 1 + 1) := by
      unfold firstTermIdx
      rw [h3]
    rw [detectBoundary_eq_some _ _ hterm]
    have htake : ('-' :: '-' :: bdy ++ '\r' :: '\n' :: rest).take (bdy.length + 1 + 1) =
        '-' :: '-' :: bdy := by
      have hl : bdy.length + 1 + 1 = ('-' :: '-' :: bdy).length := by
        simp only [List.length_cons]
      rw [hl]
      simp
    rw [htake]
    simp [isPfxOf]
  · intro data i hterm hpfx
    rw [detectBoundary_eq_some _ _ hterm, hpfx]
    simp
  · intro data hterm
    exact detectBoundary_eq_none _ hterm

/-- Witness for C4 at concrete inputs: the generic first-line conjuncts
applied to the boundary token XYZ123 with trailing content, to a payload
whose first line has no dashes, and to a terminator-free payload. -/
theorem detectBoundary_spec_witness :
    detectBoundary ('-' :: '-' :: "XYZ123".toList ++ '\r' :: '\n' :: "body".toList)
      = "XYZ123".toList
    ∧ detectBoundary ("abc\ndef".toList) = []
    ∧ detectBoundary ("no newline here".toList) = [] :=
  ⟨detectBoundary_spec.1 "XYZ123".toList "body".toList (by decide),
   detectBoundary_spec.2.1 ("abc\ndef".toList) 3 (by decide) (by decide),
   detectBoundary_spec.2.2.1 ("no newline here".toList) (by decide)⟩

/-- C9: detection strips exactly one two-dash marker, so a first line of
four dashes before the word inner yields a boundary of two dashes before
inner, and a first line of exactly two dashes yields the empty boundary,
which the streaming decoder then rejects with its could-not-detect error
(as it does whenever detection yields the empty boundary). -/
theorem detectBoundary_single_strip :
    detectBoundary ("----inner\r\nContent-Type: text/plain".toList) = "--inner".toList
    ∧ detectBoundary ("--\r\nContent-Type: text/plain".toList) = []
    ∧ multipartDecodeBoundary ("--\r\nContent-Type: text/plain".toList) =
        Except.error "multipart decoder: could not detect boundary"
    ∧ (∀ data : List Char, detectBoundary data = [] →
        multipartDecodeBoundary data =
          Except.error "multipart decoder: could not detect boundary") := by
  refine ⟨rfl, rfl, rfl, ?_⟩
  intro data h
  unfold multipartDecodeBoundary
  rw [h]
  simp

/-- Witness for C9: the decoder rejection applied to a payload with no
line terminator, whose detected boundary is empty. -/
theorem detectBoundary_single_strip_witness :
    multipartDecodeBoundary ("plain body".toList) =
      Except.error "multipart decoder: could not detect boundary" :=
  detectBoundary_single_strip.2.2.2 ("plain body".toList) (by decide)

/-- Helper: a key inserted into a fresh tree produces the straight nested
chain of singleton objects along its segments. -/
theorem insertParts_fresh (v : JVal) :
    ∀ parts : List String, insertParts [] parts v = nestChain parts v := by
  intro parts
  induction parts with
  | nil => rfl
  | cons p rest ih =>
    cases rest with
    | nil => rfl
    | cons q rs =>
      simp only [insertParts, lookupKey, nestChain]
      rw [ih]
      rfl

/-- C2: the form codec builds the tree by splitting each key on dots,
nesting one object level per segment except the last, and storing at the
last segment the single inferred value for a once-occurring key or the
array of inferred values in submission order for a repeated key; in
particular address.street=123 yields street inferred as integer 123 inside
the address object, and tags=a&tags=b&tags=c yields the three-element
string array. -/
theorem formTree_nesting :
    (∀ (k : String) (v : String),
        valuesToTree [(k, [v])] = nestChain (splitKey k) (inferType v))
    ∧ (∀ (k : String) (vs : List String), 2 ≤ vs.length →
        valuesToTree [(k, vs)] = nestChain (splitKey k) (JVal.vArr (vs.map inferType)))
    ∧ valuesToTree [("address.street", ["123"])] =
        [("address", JVal.vObj [("street", JVal.vInt 123)])]
    ∧ valuesToTree [("tags", ["a", "b", "c"])] =
        [("tags", JVal.vArr [JVal.vStr "a", JVal.vStr "b", JVal.vStr "c"])] := by
  refine ⟨?_, ?_, rfl, rfl⟩
  · intro k v
    simpa [valuesToTree, formStep] using insertParts_fresh (inferType v) (splitKey k)
  · intro k vs hlen
    match vs with
    | [] => simp at hlen
    | [v] => simp at hlen
    | v1 :: v2 :: t =>
      simpa [valuesToTree, formStep] using
        insertParts_fresh (JVal.vArr ((v1 :: v2 :: t).map inferType)) (splitKey k)

/-- Witness for C2: a dotted key with two submitted values produces the
nested chain ending in the two-element inferred array. -/
theorem formTree_nesting_witness :
    valuesToTree [("a.b", ["1", "x"])] =
      nestChain (splitKey "a.b") (JVal.vArr [JVal.vInt 1, JVal.vStr "x"]) :=
  formTree_nesting.2.1 "a.b" ["1", "x"] (by decide)

/-- Counterexample for C3: with the scalar key a processed first and the
nested key a.b processed later, the later key does not replace the value
at path a — the tree keeps the earlier string x at a, and the value y of
the later key is written to a top-level key b instead, because the
traversal cannot descend through the non-object value at a. -/
theorem formTree_conflict_counterexample :
    valuesToTree [("a", ["x"]), ("a.b", ["y"])] =
      [("a", JVal.vStr "x"), ("b", JVal.vStr "y")]
    ∧ lookupKey (valuesToTree [("a", ["x"]), ("a.b", ["y"])]) "a" = some (JVal.vStr "x")
    ∧ JVal.vStr "x" ≠ JVal.vObj [("b", JVal.vStr "y")] :=
  ⟨rfl, rfl, fun h => JVal.noConfusion h⟩

/-- C3 as amended: conflicting dotted paths are not reconciled, and which
value survives at path a depends on processing order — when the scalar key
a is processed later it overwrites the nested object at a, but when the
nested key a.b is processed later the traversal fails to descend through
the scalar at a and writes the final segment b at the current (top) level,
leaving the earlier scalar at a intact. -/
theorem formTree_conflict_order :
    valuesToTree [("a.b", ["y"]), ("a", ["x"])] = [("a", JVal.vStr "x")]
    ∧ valuesToTree [("a", ["x"]), ("a.b", ["y"])] =
        [("a", JVal.vStr "x"), ("b", JVal.vStr "y")] :=
  ⟨rfl, rfl⟩

/-- C5: BinaryMarshaler.Marshal returns the Data field's bytes verbatim
when the proto message has one (whatever the whole-message encoding would
be), falls back to proto.Marshal when it has none, returns a raw byte
slice unchanged, and fails with the unsupported-type error on any other
input. -/
theorem binaryMarshal_resolution_order :
    (∀ m bs, m.dataField = some bs → binaryMarshal (BinInput.msgIn m) = Except.ok bs)
    ∧ (∀ m, m.dataField = none → binaryMarshal (BinInput.msgIn m) = m.protoEnc)
    ∧ (∀ bs, binaryMarshal (BinInput.bytesIn bs) = Except.ok bs)
    ∧ binaryMarshal BinInput.otherIn = Except.error "binary marshaler: unsupported type" := by
  refine ⟨?_, ?_, fun bs => rfl, rfl⟩
  · intro m bs h
    simp [binaryMarshal, h]
  · intro m h
    simp [binaryMarshal, h]

/-- Witness for C5: a message whose Data field holds two bytes while its
whole-message encoding holds three other bytes marshals to the Data field
contents, bypassing the whole-message encoding. -/
theorem binaryMarshal_resolution_order_witness :
    binaryMarshal (BinInput.msgIn ⟨some [1, 2], Except.ok [9, 9, 9]⟩) = Except.ok [1, 2] :=
  binaryMarshal_resolution_order.1 ⟨some [1, 2], Except.ok [9, 9, 9]⟩ [1, 2] rfl

/-- C6: putBuffer drops a buffer whose capacity exceeds 64 KiB and pools
any other buffer reset to empty; hence a pool holding only empty buffers
stays that way across releases, every acquisition from such a pool yields
an empty buffer, and the acquire-write-release-acquire sequence never
exposes previously written bytes. -/
theorem bufferPool_hygiene :
    (∀ (pool : List GoBuffer) (buf : GoBuffer), buf.cap > 64 * 1024 →
        putBuffer pool buf = pool)
    ∧ (∀ (pool : List GoBuffer) (buf : GoBuffer), ¬ buf.cap > 64 * 1024 →
        putBuffer pool buf = { content := [], cap := buf.cap } :: pool)
    ∧ (∀ (pool : List GoBuffer) (buf : GoBuffer), poolInv pool →
        poolInv (putBuffer pool buf))
    ∧ (∀ pool : List GoBuffer, poolInv pool → (getBuffer pool).1.content = [])
    ∧ (∀ (pool : List GoBuffer) (data : List Nat), poolInv pool →
        (getBuffer (putBuffer (getBuffer pool).2
          (writeBuffer (getBuffer pool).1 data))).1.content = []) := by
  have hput : ∀ (pool : List GoBuffer) (buf : GoBuffer), poolInv pool →
      poolInv (putBuffer pool buf) := by
    intro pool buf hp
    unfold putBuffer
    split
    · exact hp
    · intro b hb
      rcases List.mem_cons.mp hb with h | h
      · rw [h]
      · exact hp b h
  have hget : ∀ pool : List GoBuffer, poolInv pool → (getBuffer pool).1.content = [] := by
    intro pool hp
    cases pool with
    | nil => rfl
    | cons b rest => exact hp b (List.mem_cons_self b rest)
  refine ⟨?_, ?_, hput, hget, ?_⟩
  · intro pool buf h
    simp [putBuffer, h]
  · intro pool buf h
    simp [putBuffer, h]
  · intro pool data hp
    apply hget
    apply hput
    intro b hb
    cases pool with
    | nil => cases hb
    | cons b0 rest => exact hp b (List.mem_cons_of_mem b0 hb)

/-- Witness for C6: starting from the empty pool, acquiring, writing three
bytes, releasing, then acquiring again yields an empty buffer. -/
theorem bufferPool_hygiene_witness :
    (getBuffer (putBuffer (getBuffer ([] : List GoBuffer)).2
      (writeBuffer (getBuffer ([] : List GoBuffer)).1 [1, 2, 3]))).1.content = [] :=
  bufferPool_hygiene.2.2.2.2 [] [1, 2, 3] (fun b hb => absurd hb (List.not_mem_nil b))

/-- C7: the direct byte-buffer Unmarshal of the Multipart codec returns
the explicit use-NewDecoder error for every payload and every target, so
it never succeeds and never touches the target. -/
theorem multipartUnmarshal_always_errors :
    ∀ (α : Type) (data : List Char) (v : α),
      multipartUnmarshal data v =
        Except.error "multipart marshaler: use NewDecoder for multipart data" :=
  fun _ _ _ => rfl

/-- Helper: inferType only ever produces scalar nodes, which writeJSON
accepts. -/
theorem goodVal_inferType (s : String) : goodVal (inferType s) = true := by
  unfold inferType
  split
  · rfl
  split
  · rfl
  split
  · rfl
  split
  · split
    · rfl
    · rfl
  · rfl

/-- Helper: goodness of an object node is goodness of its field list. -/
theorem goodVal_vObj (fs : List (String × JVal)) : goodVal (JVal.vObj fs) = goodObj fs := rfl

/-- Helper: goodness of an array node is goodness of its element list. -/
theorem goodVal_vArr (xs : List JVal) : goodVal (JVal.vArr xs) = goodList xs := rfl

/-- Helper: mapping inferType over submitted values gives an acceptable
element list. -/
theorem goodList_map_inferType (vs : List String) : goodList (vs.map inferType) = true := by
  induction vs with
  | nil => rfl
  | cons v t ih => simp [List.map_cons, goodList, goodVal_inferType v, ih]

/-- Helper: setKey preserves tree goodness. -/
theorem goodObj_setKey (k : String) (v : JVal) (hv : goodVal v = true) :
    ∀ m : List (String × JVal), goodObj m = true → goodObj (setKey m k v) = true := by
  intro m
  induction m with
  | nil => intro _; simp [setKey, goodObj, hv]
  | cons hd tl ih =>
    intro hm
    obtain ⟨k0, v0⟩ := hd
    simp only [goodObj, Bool.and_eq_true] at hm
    unfold setKey
    split
    · simp only [goodObj, Bool.and_eq_true]
      exact ⟨hv, hm.2⟩
    · simp only [goodObj, Bool.and_eq_true]
      exact ⟨hm.1, ih hm.2⟩

/-- Helper: values looked up in a good tree are good. -/
theorem lookupKey_good (k : String) :
    ∀ (m : List (String × JVal)) (u : JVal), goodObj m = true →
      lookupKey m k = some u → goodVal u = true := by
  intro m
  induction m with
  | nil => intro u _ h; cases h
  | cons hd tl ih =>
    intro u hm hl
    obtain ⟨k0, v0⟩ := hd
    simp only [goodObj, Bool.and_eq_true] at hm
    unfold lookupKey at hl
    split at hl
    · cases hl
      exact hm.1
    · exact ih u hm.2 hl

/-- Helper: insertParts preserves tree goodness. -/
theorem goodObj_insertParts (v : JVal) (hv : goodVal v = true) :
    ∀ (parts : List String) (m : List (String × JVal)), goodObj m = true →
      goodObj (insertParts m parts v) = true := by
  intro parts
  induction parts with
  | nil => intro m hm; exact hm
  | cons p rest ih =>
    intro m hm
    cases rest with
    | nil => exact goodObj_setKey p v hv m hm
    | cons q rs =>
      unfold insertParts
      split
      · next nested heq =>
        refine goodObj_setKey p _ ?_ m hm
        rw [goodVal_vObj]
        refine ih _ ?_
        have := lookupKey_good p m (JVal.vObj nested) hm heq
        rwa [goodVal_vObj] at this
      · next _ _ _ => exact ih m hm
      · next _ =>
        refine goodObj_setKey p _ ?_ m hm
        rw [goodVal_vObj]
        exact ih [] rfl

/-- Helper: one step of the valuesToJSON loop preserves tree goodness. -/
theorem goodObj_formStep (acc : List (String × JVal)) (kv : String × List String)
    (h : goodObj acc = true) : goodObj (formStep acc kv) = true := by
  obtain ⟨k, vs⟩ := kv
  match vs with
  | [] => exact h
  | [v] => exact goodObj_insertParts _ (goodVal_inferType v) (splitKey k) acc h
  | v1 :: v2 :: t =>
    refine goodObj_insertParts _ ?_ (splitKey k) acc h
    rw [goodVal_vArr]
    exact goodList_map_inferType _

/-- Helper: the whole valuesToJSON loop produces a good tree. -/
theorem goodObj_valuesToTree (values : List (String × List String)) :
    goodObj (valuesToTree values) = true := by
  have aux : ∀ (vs : List (String × List String)) (acc : List (String × JVal)),
      goodObj acc = true → goodObj (vs.foldl formStep acc) = true := by
    intro vs
    induction vs with
    | nil => intro acc h; exact h
    | cons kv rest ih =>
      intro acc h
      exact ih (formStep acc kv) (goodObj_formStep acc kv h)
  exact aux values [] rfl

/-- Helper: membership in a good element list gives a good element. -/
theorem goodList_mem : ∀ (xs : List JVal) (x : JVal), goodList xs = true → x ∈ xs →
    goodVal x = true := by
  intro xs
  induction xs with
  | nil => intro x _ hx; cases hx
  | cons y t ih =>
    intro x hg hx
    simp only [goodList, Bool.and_eq_true] at hg
    rcases List.mem_cons.mp hx with h | h
    · rw [h]; exact hg.1
    · exact ih x hg.2 h

/-- Helper: membership in a good field list gives a good field value. -/
theorem goodObj_mem : ∀ (fs : List (String × JVal)) (p : String × JVal),
    goodObj fs = true → p ∈ fs → goodVal p.2 = true := by
  intro fs
  induction fs with
  | nil => intro p _ hp; cases hp
  | cons q t ih =>
    intro p hg hp
    obtain ⟨k0, v0⟩ := q
    simp only [goodObj, Bool.and_eq_true] at hg
    rcases List.mem_cons.mp hp with h | h
    · rw [h]; exact hg.1
    · exact ih p hg.2 h

/-- Helper: writeArr succeeds when every element serializes. -/
theorem writeArr_ok : ∀ xs : List JVal, (∀ x ∈ xs, ∃ s, writeJSON x = Except.ok s) →
    ∃ s, writeArr xs = Except.ok s := by
  intro xs
  induction xs with
  | nil => intro _; exact ⟨"", rfl⟩
  | cons x t ih =>
    intro h
    cases t with
    | nil =>
      obtain ⟨s, hs⟩ := h x (List.mem_cons_self x [])
      exact ⟨s, by rw [show writeArr [x] = writeJSON x from rfl, hs]⟩
    | cons y r =>
      obtain ⟨s, hs⟩ := h x (List.mem_cons_self x (y :: r))
      obtain ⟨t', ht⟩ := ih (fun z hz => h z (List.mem_cons_of_mem x hz))
      exact ⟨s ++ "," ++ t', by simp only [writeArr, hs, ht]⟩

/-- Helper: writeObj succeeds when every field value serializes. -/
theorem writeObj_ok : ∀ fs : List (String × JVal),
    (∀ p ∈ fs, ∃ s, writeJSON p.2 = Except.ok s) → ∃ s, writeObj fs = Except.ok s := by
  intro fs
  induction fs with
  | nil => intro _; exact ⟨"", rfl⟩
  | cons hd t ih =>
    intro h
    obtain ⟨k, v⟩ := hd
    cases t with
    | nil =>
      obtain ⟨s, hs⟩ := h (k, v) (List.mem_cons_self (k, v) [])
      exact ⟨quoteGo k ++ ":" ++ s, by simp only [writeObj, hs]⟩
    | cons f r =>
      obtain ⟨s, hs⟩ := h (k, v) (List.mem_cons_self (k, v) (f :: r))
      obtain ⟨t', ht⟩ := ih (fun z hz => h z (List.mem_cons_of_mem (k, v) hz))
      exact ⟨quoteGo k ++ ":" ++ s ++ "," ++ t', by simp only [writeObj, hs, ht]⟩

/-- Helper: writeJSON succeeds on every good tree, by strong induction on
the tree size. -/
theorem writeJSON_ok_of_good : ∀ (n : Nat) (v : JVal), sizeOf v ≤ n →
    goodVal v = true → ∃ s, writeJSON v = Except.ok s := by
  intro n
  induction n with
  | zero =>
    intro v hsz _
    exact absurd hsz (by cases v <;> simp)
  | succ n ih =>
    intro v hsz hg
    cases v with
    | vNull => exact ⟨"null", rfl⟩
    | vBool b => exact ⟨if b then "true" else "false", rfl⟩
    | vInt i => exact ⟨toString i, rfl⟩
    | vFloat q => exact ⟨fmtFloat q, rfl⟩
    | vStr s => exact ⟨quoteGo s, rfl⟩
    | vBytes bs => simp [goodVal] at hg
    | vArr xs =>
      have hmem : ∀ x ∈ xs, ∃ s, writeJSON x = Except.ok s := by
        intro x hx
        refine ih x ?_ (goodList_mem xs x (by rwa [goodVal_vArr] at hg) hx)
        have h1 : sizeOf x < sizeOf xs := List.sizeOf_lt_of_mem hx
        have h2 : sizeOf (JVal.vArr xs) = 1 + sizeOf xs := by simp
        omega
      obtain ⟨body, hb⟩ := writeArr_ok xs hmem
      exact ⟨"[" ++ body ++ "]", by simp only [writeJSON, hb]⟩
    | vObj fs =>
      have hmem : ∀ p ∈ fs, ∃ s, writeJSON p.2 = Except.ok s := by
        intro p hp
        refine ih p.2 ?_ (goodObj_mem fs p (by rwa [goodVal_vObj] at hg) hp)
        have h1 : sizeOf p < sizeOf fs := List.sizeOf_lt_of_mem hp
        have h2 : sizeOf p.2 < sizeOf p := by
          obtain ⟨a, b⟩ := p
          simp
        have h3 : sizeOf (JVal.vObj fs) = 1 + sizeOf fs := by simp
        omega
      obtain ⟨body, hb⟩ := writeObj_ok fs hmem
      exact ⟨"\x7b" ++ body ++ "\x7d", by simp only [writeJSON, hb]⟩

/-- C8: the tree the form codec builds from URL values contains only node
kinds the JSON writer accepts (type inference yields only bool, int64,
float64 or string, and the builder adds only objects and arrays of those),
so serializing a form-built tree never reaches the unsupported-type branch:
form-to-JSON serialization cannot fail. -/
theorem formJSON_never_fails (values : List (String × List String)) :
    ∃ s, valuesToJSON values = Except.ok s := by
  have hv : goodVal (JVal.vObj (valuesToTree values)) = true := by
    rw [goodVal_vObj]
    exact goodObj_valuesToTree values
  obtain ⟨s, hs⟩ :=
    writeJSON_ok_of_good (sizeOf (JVal.vObj (valuesToTree values))) _ le_rfl hv
  exact ⟨s, hs⟩

/-- Counterexample for C10: the claim says the Message fallback is
attempted whenever the configured field is absent or not a settable
string, but Marshal never examines settability — with the configured
output field _text present as a non-settable string field (realizable in
Go as an unexported string field, which reflect finds by name and reads,
with titleCase leaving the leading underscore unchanged), Marshal returns
that field's value primary instead of falling back to the Message field's
value fallback. -/
theorem textMarshal_settable_counterexample :
    textMarshal "_text"
      (TextInput.msgIn [("_text", ⟨true, false, "primary"⟩),
                        ("Message", ⟨true, true, "fallback"⟩)]) =
      Except.ok "primary"
    ∧ Except.ok "primary" ≠ (Except.ok "fallback" : Except String String) :=
  ⟨rfl, by simp⟩

/-- C10 as amended: both codec directions title-case the configured field
name before the reflection lookup (the default name text becoming Text),
and the fallback lookup always uses the literal name Message whatever name
was configured; the fallback is attempted by Unmarshal whenever the
configured field is absent, not settable, or not a string, but by Marshal
only when the configured field is absent or not a string — Marshal reads
a found string field without checking settability. -/
theorem textCodec_field_resolution :
    (∀ fields : List (String × GoField),
        textMarshal "" (TextInput.msgIn fields) = textMarshal "text" (TextInput.msgIn fields))
    ∧ (∀ fields : List (String × GoField),
        textUnmarshal "" "D" (TextInput.msgIn fields) =
          textUnmarshal "text" "D" (TextInput.msgIn fields))
    ∧ titleCase "text" = "Text"
    ∧ (∀ (fields : List (String × GoField)) (name : String) (f : GoField), name ≠ "" →
        fieldByName fields (titleCase name) = some f → f.isString = true →
        textMarshal name (TextInput.msgIn fields) = Except.ok f.value)
    ∧ (∀ (fields : List (String × GoField)) (name : String), name ≠ "" →
        fieldByName fields (titleCase name) = none →
        textMarshal name (TextInput.msgIn fields) = textMarshalFallback fields)
    ∧ (∀ (fields : List (String × GoField)) (name : String) (f : GoField), name ≠ "" →
        fieldByName fields (titleCase name) = some f → f.isString = false →
        textMarshal name (TextInput.msgIn fields) = textMarshalFallback fields)
    ∧ (∀ (fields : List (String × GoField)) (name : String) (f : GoField), name ≠ "" →
        fieldByName fields (titleCase name) = some f →
        (f.canSet && f.isString) = true →
        textUnmarshal name "D" (TextInput.msgIn fields) =
          Except.ok (setFieldValue fields (titleCase name) "D"))
    ∧ (∀ (fields : List (String × GoField)) (name : String) (f : GoField), name ≠ "" →
        fieldByName fields (titleCase name) = some f →
        (f.canSet && f.isString) = false →
        textUnmarshal name "D" (TextInput.msgIn fields) = textUnmarshalFallback fields "D")
    ∧ (∀ (fields : List (String × GoField)) (name : String), name ≠ "" →
        fieldByName fields (titleCase name) = none →
        textUnmarshal name "D" (TextInput.msgIn fields) = textUnmarshalFallback fields "D")
    ∧ (∀ data : String, textMarshal "anything"
        (TextInput.msgIn [("Message", ⟨true, true, data⟩)]) = Except.ok data) := by
  refine ⟨fun fields => rfl, fun fields => rfl, rfl, ?_, ?_, ?_, ?_, ?_, ?_, fun data => rfl⟩
  · intro fields name f hn hf hs
    simp [textMarshal, if_neg hn, hf, hs]
  · intro fields name hn hf
    simp [textMarshal, if_neg hn, hf]
  · intro fields name f hn hf hs
    simp [textMarshal, if_neg hn, hf, hs]
  · intro fields name f hn hf hs
    simp [textUnmarshal, if_neg hn, hf, hs]
  · intro fields name f hn hf hs
    simp [textUnmarshal, if_neg hn, hf, hs]
  · intro fields name hn hf
    simp [textUnmarshal, if_neg hn, hf]

/-- Witness for C10 at concrete inputs: the default output name resolves
to the Text field; a configured name body resolves, title-cased, to the
Body field; and Unmarshal falls back to Message when the configured Text
field is not settable. -/
theorem textCodec_field_resolution_witness :
    textMarshal "body" (TextInput.msgIn [("Body", ⟨true, true, "hi"⟩)]) = Except.ok "hi"
    ∧ textUnmarshal "" "D"
        (TextInput.msgIn [("Text", ⟨true, false, "a"⟩), ("Message", ⟨true, true, "b"⟩)]) =
        textUnmarshalFallback [("Text", ⟨true, false, "a"⟩), ("Message", ⟨true, true, "b"⟩)] "D" :=
  ⟨textCodec_field_resolution.2.2.2.1 [("Body", ⟨true, true, "hi"⟩)] "body"
      ⟨true, true, "hi"⟩ (by decide) rfl rfl,
   by
    rw [textCodec_field_resolution.2.1 [("Text", ⟨true, false, "a"⟩), ("Message", ⟨true, true, "b"⟩)]]
    exact textCodec_field_resolution.2.2.2.2.2.2.2.1
      [("Text", ⟨true, false, "a"⟩), ("Message", ⟨true, true, "b"⟩)] "text"
      ⟨true, false, "a"⟩ (by decide) rfl rfl⟩

end Grpckit
